import Mathlib

/-!
Verification development for the fineprint backend scraper service
(src/backend/services/scraper_service.py).

The Python code is shallowly embedded: parsed HTML documents become a
`Node` tree, Python strings become `String`/`List Char`, and the external
collaborators (HTTP transport, headless browser, URL resolution) become
explicit environment parameters.  All text manipulation is implemented by
structural recursion on `List Char` so that every definition evaluates by
kernel reduction on concrete inputs.
-/

/-! ## Character and string utilities (models of Python str primitives) -/

/-- Whitespace characters recognised by Python's re module and str.strip
(ASCII part of the \s class). -/
def isPyWS (c : Char) : Bool :=
  c == ' ' || c == '\t' || c == '\n' || c == '\r' || c == '\x0b' || c == '\x0c'

/-- Lowercasing of a character list, modelling str.lower / re.I matching. -/
def lowerList (l : List Char) : List Char := l.map Char.toLower

/-- Boolean list-prefix test. -/
def isPrefixB : List Char → List Char → Bool
  | [], _ => true
  | _ :: _, [] => false
  | a :: as, b :: bs => a == b && isPrefixB as bs

/-- Boolean contiguous-sublist test, modelling Python's `needle in hay`. -/
def isInfixB (needle : List Char) : List Char → Bool
  | [] => isPrefixB needle []
  | b :: bs => isPrefixB needle (b :: bs) || isInfixB needle bs

/-- Case-insensitive substring test: models re.search of a literal pattern
with the re.I flag, and `pattern in text.lower()`. -/
def containsCI (hay needle : String) : Bool :=
  isInfixB (lowerList needle.data) (lowerList hay.data)

/-- Models Python str.startswith. -/
def strStartsWith (s p : String) : Bool := isPrefixB p.data s.data

/-- Models Python str.strip(): drop leading and trailing whitespace. -/
def pyTrim (l : List Char) : List Char :=
  List.rdropWhile isPyWS (List.dropWhile isPyWS l)

/-- String-level wrapper for `pyTrim`. -/
def pyStrip (s : String) : String := ⟨pyTrim s.data⟩

/-- Split a character list at every occurrence of the separator character,
modelling Python str.split(sep) for a one-character separator. -/
def splitOnChar (sep : Char) : List Char → List (List Char)
  | [] => [[]]
  | c :: cs =>
    if c == sep then [] :: splitOnChar sep cs
    else
      match splitOnChar sep cs with
      | [] => [[c]]
      | p :: ps => (c :: p) :: ps

/-- Split on whitespace runs discarding empty fields, modelling Python
str.split() with no argument; used for multi-valued class attributes. -/
def wsTokens : List Char → List Char → List (List Char)
  | cur, [] => if cur = [] then [] else [cur.reverse]
  | cur, c :: cs =>
    if isPyWS c then
      if cur = [] then wsTokens [] cs else cur.reverse :: wsTokens [] cs
    else wsTokens (c :: cur) cs

/-! ## Document model (the BeautifulSoup collaborator) -/

/-- A parsed HTML document: element nodes with a tag name, an attribute
list, and children, and text nodes carrying a string. -/
inductive Node where
  | element : String → List (String × String) → List Node → Node
  | text : String → Node

/-- Attribute lookup in an attribute list. -/
def attrLookup : List (String × String) → String → Option String
  | [], _ => none
  | (a, v) :: rest, k => if a = k then some v else attrLookup rest k

/-- The value of an attribute of a node, if the node is an element carrying
that attribute. -/
def Node.attr : Node → String → Option String
  | .element _ attrs _, k => attrLookup attrs k
  | .text _, _ => none

/-- The tag of a node, if it is an element. -/
def Node.tag : Node → Option String
  | .element t _ _ => some t
  | .text _ => none

mutual

/-- The strings of all text nodes of a subtree, in document order. -/
def textsOf : Node → List String
  | .element _ _ cs => textsOfList cs
  | .text s => [s]

/-- The strings of all text nodes of a forest, in document order. -/
def textsOfList : List Node → List String
  | [] => []
  | n :: ns => textsOf n ++ textsOfList ns

end

mutual

/-- All element nodes of a subtree in document (preorder) order, the root
element included; models iterating a BeautifulSoup tree. -/
def elementsOf : Node → List Node
  | .element t a cs => .element t a cs :: elementsOfList cs
  | .text _ => []

/-- All element nodes of a forest in document order. -/
def elementsOfList : List Node → List Node
  | [] => []
  | n :: ns => elementsOf n ++ elementsOfList ns

end

/-- Models BeautifulSoup get_text(separator, strip): the text node strings
in document order, each stripped and dropped when empty if strip is set,
joined with the separator. -/
def getText (sep : String) (strip : Bool) (n : Node) : String :=
  String.intercalate sep
    (if strip then (textsOf n |>.map pyStrip).filter (fun s => !(s == "")) else textsOf n)

/-- Models soup.find_all with a Boolean node filter: all matching elements
in document order. -/
def findAll (p : Node → Bool) (doc : Node) : List Node := (elementsOf doc).filter p

/-- Tag membership in a fixed tag list, modelling find_all([t1, t2, ...]). -/
def tagIn (n : Node) (ts : List String) : Bool :=
  match n.tag with
  | some t => ts.contains t
  | none => false

/-! ## Fine-Print Extractor (extract_fine_print_sections) -/

/-- Search for the literal pattern "footer" case-insensitively in one class
token, modelling re.compile(r'footer', re.I) applied by find_all. -/
def reSearchFooter (t : List Char) : Bool := isInfixB "footer".data (lowerList t)

/-- Search for the pattern disclaimer|fine-?print|legal|terms
case-insensitively in a string, modelling the compiled regex of the
extractor: the alternation of the five literal alternatives. -/
def reSearchDisclaimer (t : List Char) : Bool :=
  isInfixB "disclaimer".data (lowerList t) || isInfixB "fineprint".data (lowerList t) ||
    isInfixB "fine-print".data (lowerList t) || isInfixB "legal".data (lowerList t) ||
    isInfixB "terms".data (lowerList t)

/-- Does some token of the node's (multi-valued) class attribute satisfy
the token test?  Models a class_ filter of find_all, which matches a regex
against each individual class of the attribute. -/
def classTokenMatch (test : List Char → Bool) (n : Node) : Bool :=
  match n.attr "class" with
  | some v => (wsTokens [] v.data).any test
  | none => false

/-- Filter of find_all(['footer', 'div'], class_=re.compile(r'footer', re.I)):
the tag must be footer or div AND the class attribute must be present with a
class containing "footer" case-insensitively. -/
def footerPred (n : Node) : Bool :=
  tagIn n ["footer", "div"] && classTokenMatch reSearchFooter n

/-- Filter of find_all(['div', 'section', 'p', 'span'], class_=disclaimer-regex). -/
def disclaimerClassPred (n : Node) : Bool :=
  tagIn n ["div", "section", "p", "span"] && classTokenMatch reSearchDisclaimer n

/-- Filter of find_all(['div', 'section', 'p'], id=disclaimer-regex); the id
attribute is single-valued, so the regex is searched in the whole value. -/
def disclaimerIdPred (n : Node) : Bool :=
  tagIn n ["div", "section", "p"] &&
    (match n.attr "id" with
     | some v => reSearchDisclaimer v.data
     | none => false)

/-- Filter of find_all('small'). -/
def smallPred (n : Node) : Bool := n.tag == some "small"

/-- One extractor loop step: the element's visible text, kept only when
nonempty (the `if text:` guard of the Python loops). -/
def nonEmptyText (n : Node) : Option String :=
  let t := getText " " true n
  if t = "" then none else some t

/-- Does a line contain an asterisk, dagger, or double dagger? -/
def hasMarker (l : List Char) : Bool := l.any (fun c => c == '*' || c == '†' || c == '‡')

/-- Step 4 of the extractor: the stripped lines of the page's full visible
text that contain a footnote marker. -/
def asteriskLines (doc : Node) : List String :=
  (splitOnChar '\n' (getText "\n" false doc).data).filterMap
    (fun line => if hasMarker line then some (String.mk (pyTrim line)) else none)

/-- The list fine_print_text built by extract_fine_print_sections, in order:
footer-classed footer/div elements, disclaimer-classed elements,
disclaimer-id elements, small elements, then the footnote-marker lines. -/
def extractParts (doc : Node) : List String :=
  (findAll footerPred doc).filterMap nonEmptyText ++
    (findAll disclaimerClassPred doc).filterMap nonEmptyText ++
    (findAll disclaimerIdPred doc).filterMap nonEmptyText ++
    (findAll smallPred doc).filterMap nonEmptyText ++
    asteriskLines doc

/-- extract_fine_print_sections: the collected fragments joined with
newlines. -/
def extract_fine_print_sections (doc : Node) : String :=
  String.intercalate "\n" (extractParts doc)

/-! ## Link Discoverer (find_terms_links) -/

/-- TERMS_PATTERNS: all alternatives are regex-literal strings. -/
def TERMS_PATTERNS : List String :=
  ["terms", "t&c", "t-c", "conditions", "legal", "disclaimer", "eligibility",
   "requirements", "privacy", "policy", "agreement"]

/-- is_terms_link: some pattern occurs (case-insensitively) in the anchor's
lowered text or in its href. -/
def isTermsLink (linkText href : String) : Bool :=
  TERMS_PATTERNS.any (fun p => containsCI linkText p || containsCI href p)

/-- The anchors scanned by find_terms_links: elements with tag a carrying an
href attribute, in document order (soup.find_all('a', href=True)). -/
def anchorsOf (doc : Node) : List Node :=
  (elementsOf doc).filter (fun n => n.tag == some "a" && (n.attr "href").isSome)

/-- The href of an anchor. -/
def hrefOf (n : Node) : String := (n.attr "href").getD ""

/-- link.get_text(strip=True).lower() of an anchor. -/
def anchorTextLower (n : Node) : String := ⟨lowerList (getText "" true n).data⟩

/-- The loop of find_terms_links over the anchor list, threading the
found_urls set (modelled as the list of urls added so far) and emitting the
links list in order.  The resolve parameter abstracts urllib.parse.urljoin. -/
def ftlAux (resolve : String → String → String) (base : String) :
    List Node → List String → List String
  | [], _ => []
  | a :: rest, found =>
    if isTermsLink (anchorTextLower a) (hrefOf a) then
      let u := resolve base (hrefOf a)
      if u ∉ found ∧ strStartsWith u "http" = true then
        u :: ftlAux resolve base rest (u :: found)
      else ftlAux resolve base rest found
    else ftlAux resolve base rest found

/-- find_terms_links: candidate terms links of the document, resolved
against the base url, deduplicated, and filtered by startswith('http'). -/
def find_terms_links (resolve : String → String → String) (doc : Node) (base : String) :
    List String :=
  ftlAux resolve base (anchorsOf doc) []

/-- The stream of resolved urls of the terms-matching anchors of a list, in
document order, before deduplication and the startswith filter. -/
def termsCandidates (resolve : String → String → String) (base : String)
    (l : List Node) : List String :=
  l.filterMap
    (fun a =>
      if isTermsLink (anchorTextLower a) (hrefOf a) then some (resolve base (hrefOf a))
      else none)

/-- First-seen deduplication of a list relative to an already-seen set. -/
def dedupFSAux {α : Type} [DecidableEq α] : List α → List α → List α
  | _, [] => []
  | seen, x :: xs =>
    if x ∈ seen then dedupFSAux seen xs else x :: dedupFSAux (x :: seen) xs

/-- First-seen deduplication: keeps the first occurrence of each element,
preserving order. -/
def dedupFS {α : Type} [DecidableEq α] (l : List α) : List α := dedupFSAux [] l

/-- Scheme detection: the characters allowed after the first letter of a
URI scheme. -/
def schemeChar (c : Char) : Bool := c.isAlpha || c.isDigit || c == '+' || c == '-' || c == '.'

/-- Does the tail of a candidate scheme reach a colon through scheme
characters only? -/
def schemeColon : List Char → Bool
  | [] => false
  | c :: cs => if c == ':' then true else schemeChar c && schemeColon cs

/-- Does a URL reference start with a URI scheme (letter, then scheme
characters, then a colon)? -/
def hasScheme (s : String) : Bool :=
  match s.data with
  | [] => false
  | c :: cs => c.isAlpha && schemeColon cs

/-- Everything up to and including the last slash of a URL. -/
def dirOf (l : List Char) : List Char := List.rdropWhile (fun c => !(c == '/')) l

/-- Modelled from the spec: resolution of matching hrefs to absolute URLs
against the base URL (the urllib.parse.urljoin collaborator, which is
external to the repository).  An href that already carries a URI scheme
(mailto:, https:, httpx:, ...) is already absolute and is returned
unchanged, an empty href resolves to the base itself, and any other href is
resolved against the directory of the base. -/
def urljoin (base url : String) : String :=
  if url = "" then base
  else if hasScheme url then url
  else String.mk (dirOf base.data) ++ url

/-- The spec's acceptance predicate for discovered links, as worded: the
resolved URL uses an HTTP(S) scheme. -/
def usesHttpScheme (u : String) : Bool :=
  strStartsWith u "http://" || strStartsWith u "https://"

/-! ## Text Normalizer (clean_and_deduplicate_text) -/

/-- One pass of re.sub(r'\s+', ' ', text): the flag records whether the
previous character was whitespace, so each whitespace run is emitted as a
single space. -/
def collapseAux : Bool → List Char → List Char
  | _, [] => []
  | prevWS, c :: cs =>
    if isPyWS c then
      if prevWS then collapseAux true cs else ' ' :: collapseAux true cs
    else c :: collapseAux false cs

/-- re.sub(r'\s+', ' ', text). -/
def collapseWS (l : List Char) : List Char := collapseAux false l

/-- text.split('.'). -/
def splitDot (l : List Char) : List (List Char) := splitOnChar '.' l

/-- The sentence filtering loop: keep a stripped sentence when it is
nonempty, not seen before, and longer than 10 characters; the first list
threads the seen set. -/
def keepAux : List (List Char) → List (List Char) → List (List Char)
  | _, [] => []
  | seen, s :: ss =>
    if s ≠ [] ∧ s ∉ seen ∧ 10 < s.length then s :: keepAux (s :: seen) ss
    else keepAux seen ss

/-- '. '.join(unique_sentences). -/
def joinDot : List (List Char) → List Char
  | [] => []
  | [s] => s
  | s :: s2 :: rest => s ++ '.' :: ' ' :: joinDot (s2 :: rest)

/-- The stripped sentence candidates of a text: whitespace-collapse, split
on periods, strip each part. -/
def sentencesOf (l : List Char) : List (List Char) := (splitDot (collapseWS l)).map pyTrim

/-- The surviving unique sentences of a text. -/
def keptOf (l : List Char) : List (List Char) := keepAux [] (sentencesOf l)

/-- The deduplicated text before the length cap: cleaned in the Python code. -/
def dedupCore (l : List Char) : List Char := joinDot (keptOf l)

/-- The truncation marker appended when the cleaned text exceeds max_length. -/
def truncMarker : List Char := "... [content truncated]".data

/-- clean_and_deduplicate_text on character lists. -/
def cleanCore (l : List Char) (maxLength : Nat) : List Char :=
  let cleaned := dedupCore l
  if maxLength < cleaned.length then cleaned.take maxLength ++ truncMarker else cleaned

/-- clean_and_deduplicate_text(text, max_length). -/
def clean_and_deduplicate_text (text : String) (maxLength : Nat) : String :=
  ⟨cleanCore text.data maxLength⟩

/-! ## Scrape strategies and orchestrator (scraper_service) -/

/-- ScraperMode. -/
inductive ScraperMode where
  | static
  | dynamic
  | auto
deriving DecidableEq

/-- ScrapeResult. -/
structure ScrapeResult where
  url : String
  final_url : String
  content : String
  char_count : Nat
  mode_used : ScraperMode
  success : Bool
  error : Option String := none
deriving DecidableEq

/-- The configuration fields of config.Settings that the scraper reads. -/
structure Settings where
  enable_dynamic_scraping : Bool
  dynamic_scraping_timeout : Nat
  static_content_threshold : Nat

/-- ScrapeResult.is_likely_incomplete: char_count below the configured
static content threshold. -/
def is_likely_incomplete (s : Settings) (r : ScrapeResult) : Bool :=
  decide (r.char_count < s.static_content_threshold)

/-- The environment of the static strategy: fetch_page (which either
returns html and the final post-redirect url or raises), BeautifulSoup
parsing, and urljoin. -/
structure StaticEnv where
  fetch : String → Except String (String × String)
  parse : String → Node
  resolve : String → String → String

/-- The outcome of one headless-browser navigation: rendered page (final
url, html), a navigation timeout (PlaywrightTimeout), or any other
exception with its message. -/
inductive DynOutcome where
  | ok : String → String → DynOutcome
  | timeout : DynOutcome
  | err : String → DynOutcome

/-- The environment of the dynamic strategy: browser navigation and
BeautifulSoup parsing. -/
structure DynEnv where
  nav : String → DynOutcome
  parse : String → Node

/-- The related-pages loop of _scrape_static: fetch each discovered link,
appending a labeled TERMS PAGE section on success and skipping the link on
a fetch failure. -/
def relatedSections (env : StaticEnv) : List String → List String
  | [] => []
  | u :: us =>
    match env.fetch u with
    | .ok (h, _) =>
      ("\n=== TERMS PAGE (" ++ u ++ ") ===\n" ++ getText " " true (env.parse h)) ::
        relatedSections env us
    | .error _ => relatedSections env us

/-- _scrape_static: fetch the main page (a fetch failure yields a failed
STATIC result), extract fine print, add the full page text, follow up to
maxRelatedPages discovered terms links, and join all sections. -/
def scrape_static (env : StaticEnv) (url : String) (maxRelatedPages : Nat) : ScrapeResult :=
  match env.fetch url with
  | .error e => ⟨url, url, "", 0, .static, false, some e⟩
  | .ok (html, finalUrl) =>
    let soup := env.parse html
    let mainText := extract_fine_print_sections soup
    let headSections :=
      (if mainText ≠ "" then ["=== MAIN PAGE (" ++ finalUrl ++ ") ===\n" ++ mainText] else []) ++
        ["\n=== FULL PAGE CONTENT ===\n" ++ getText " " true soup]
    let termsLinks := find_terms_links env.resolve soup finalUrl
    let combined :=
      String.intercalate "\n\n"
        (headSections ++ relatedSections env (termsLinks.take maxRelatedPages))
    ⟨url, finalUrl, combined, combined.length, .static, true, none⟩

/-- The timeout-specific error message of the dynamic strategy. -/
def timeoutMessage (s : Settings) : String :=
  "Timeout after " ++ toString s.dynamic_scraping_timeout ++ " seconds"

/-- The label prepended to the dynamic strategy's content. -/
def dynamicHeader (finalUrl : String) : String :=
  "=== DYNAMIC PAGE (" ++ finalUrl ++ ") ===\n"

/-- _scrape_dynamic: navigate with the headless browser; on success wrap
the rendered page's visible text in a DYNAMIC PAGE section (char_count is
the length of the unwrapped text), on a navigation timeout fail with the
timeout message, on any other exception fail with that exception's
message. -/
def scrape_dynamic (s : Settings) (env : DynEnv) (url : String) : ScrapeResult :=
  match env.nav url with
  | .ok finalUrl html =>
    let textContent := getText " " true (env.parse html)
    ⟨url, finalUrl, dynamicHeader finalUrl ++ textContent, textContent.length, .dynamic, true,
      none⟩
  | .timeout => ⟨url, url, "", 0, .dynamic, false, some (timeoutMessage s)⟩
  | .err e => ⟨url, url, "", 0, .dynamic, false, some e⟩

/-- scrape_page_async: the mode-selection orchestrator. -/
def scrape_page_async (s : Settings) (env : StaticEnv) (denv : DynEnv) (url : String)
    (mode : ScraperMode) (maxRelatedPages : Nat) : ScrapeResult :=
  match mode with
  | .static => scrape_static env url maxRelatedPages
  | .dynamic =>
    if s.enable_dynamic_scraping then scrape_dynamic s denv url
    else scrape_static env url maxRelatedPages
  | .auto =>
    let result := scrape_static env url maxRelatedPages
    if result.success && is_likely_incomplete s result then
      if s.enable_dynamic_scraping then
        let dynamicResult := scrape_dynamic s denv url
        if dynamicResult.success && !is_likely_incomplete s dynamicResult then dynamicResult
        else result
      else result
    else result

/-- The orchestrator instrumented with an invocation flag: the Boolean is
true exactly when the dynamic strategy was invoked (awaited) during the
call.  The ScrapeResult component follows scrape_page_async line by line. -/
def scrape_page_traced (s : Settings) (env : StaticEnv) (denv : DynEnv) (url : String)
    (mode : ScraperMode) (maxRelatedPages : Nat) : ScrapeResult × Bool :=
  match mode with
  | .static => (scrape_static env url maxRelatedPages, false)
  | .dynamic =>
    if s.enable_dynamic_scraping then (scrape_dynamic s denv url, true)
    else (scrape_static env url maxRelatedPages, false)
  | .auto =>
    let result := scrape_static env url maxRelatedPages
    if result.success && is_likely_incomplete s result then
      if s.enable_dynamic_scraping then
        let dynamicResult := scrape_dynamic s denv url
        if dynamicResult.success && !is_likely_incomplete s dynamicResult then
          (dynamicResult, true)
        else (result, true)
      else (result, false)
    else (result, false)

/-! ## Concrete environments used by witnesses and counterexamples -/

/-- The default configuration of config.Settings. -/
def s0 : Settings := ⟨true, 10, 200⟩

/-- A static environment whose fetch always fails. -/
def envFail : StaticEnv := ⟨fun _ => .error "connection refused", fun _ => .text "", fun _ h => h⟩

/-- A dynamic environment whose navigation always times out. -/
def denv0 : DynEnv := ⟨fun _ => .timeout, fun _ => .text ""⟩

/-- A dynamic environment that renders a short page successfully. -/
def denvOk : DynEnv := ⟨fun _ => .ok "http://x" "page", fun _ => .text "hi"⟩

/-! ## Basic helper lemmas -/

/-- The length of a string is the length of its character list. -/
theorem strLength (s : String) : s.length = s.data.length := rfl

/-- The instrumented orchestrator computes the same result as
scrape_page_async. -/
theorem scrape_page_traced_fst (s : Settings) (env : StaticEnv) (denv : DynEnv) (url : String)
    (mode : ScraperMode) (maxRelatedPages : Nat) :
    (scrape_page_traced s env denv url mode maxRelatedPages).1 =
      scrape_page_async s env denv url mode maxRelatedPages := by
  cases mode <;> simp only [scrape_page_traced, scrape_page_async] <;> split_ifs <;> rfl

/-! ## C1 and C2: the AUTO-mode policy -/

/-- C1: In AUTO mode the orchestrator runs the static strategy first and
returns the dynamic strategy's result if and only if the static result
succeeded, is likely-incomplete (char count below the configured
threshold), dynamic scraping is enabled, and the dynamic result succeeded
and is not itself likely-incomplete; in every other case it returns the
static result. -/
theorem auto_mode_policy (s : Settings) (env : StaticEnv) (denv : DynEnv) (url : String)
    (maxRelatedPages : Nat) :
    scrape_page_async s env denv url ScraperMode.auto maxRelatedPages =
      if (scrape_static env url maxRelatedPages).success = true ∧
          is_likely_incomplete s (scrape_static env url maxRelatedPages) = true ∧
          s.enable_dynamic_scraping = true ∧
          (scrape_dynamic s denv url).success = true ∧
          is_likely_incomplete s (scrape_dynamic s denv url) = false
        then scrape_dynamic s denv url
        else scrape_static env url maxRelatedPages := by
  cases hs : (scrape_static env url maxRelatedPages).success <;>
    cases hi : is_likely_incomplete s (scrape_static env url maxRelatedPages) <;>
      cases he : s.enable_dynamic_scraping <;>
        cases hds : (scrape_dynamic s denv url).success <;>
          cases hdi : is_likely_incomplete s (scrape_dynamic s denv url) <;>
            simp [scrape_page_async, hs, hi, he, hds, hdi]

/-- C2: In AUTO mode the dynamic strategy is never invoked when the static
result is not likely-incomplete, and never invoked when the static strategy
failed: in both cases the orchestrator returns the static result with the
dynamic-invocation flag false.  The instrumented orchestrator agrees with
scrape_page_async on the returned result. -/
theorem auto_mode_never_escalates (s : Settings) (env : StaticEnv) (denv : DynEnv)
    (url : String) (maxRelatedPages : Nat) :
    (is_likely_incomplete s (scrape_static env url maxRelatedPages) = false →
      scrape_page_traced s env denv url ScraperMode.auto maxRelatedPages =
        (scrape_static env url maxRelatedPages, false)) ∧
    ((scrape_static env url maxRelatedPages).success = false →
      scrape_page_traced s env denv url ScraperMode.auto maxRelatedPages =
        (scrape_static env url maxRelatedPages, false)) ∧
    (scrape_page_traced s env denv url ScraperMode.auto maxRelatedPages).1 =
      scrape_page_async s env denv url ScraperMode.auto maxRelatedPages := by
  refine ⟨fun hi => ?_, fun hs => ?_, scrape_page_traced_fst ..⟩
  · simp [scrape_page_traced, hi]
  · simp [scrape_page_traced, hs]

/-- Witness for C2: with a fetch that fails, AUTO returns the static
failure and the dynamic strategy is not invoked. -/
theorem auto_mode_never_escalates_witness :
    scrape_page_traced s0 envFail denv0 "http://example.com" ScraperMode.auto 5 =
      (scrape_static envFail "http://example.com" 5, false) :=
  (auto_mode_never_escalates s0 envFail denv0 "http://example.com" 5).2.1 rfl

/-! ## C5: timeout-specific dynamic failure -/

/-- C5: when navigation times out the dynamic strategy returns a failed
DYNAMIC result whose error is the timeout-specific message, while any other
exception produces a failed result carrying that exception's own message. -/
theorem dynamic_timeout_error (s : Settings) (denv : DynEnv) (url : String)
    (h : denv.nav url = DynOutcome.timeout) :
    scrape_dynamic s denv url =
      ⟨url, url, "", 0, ScraperMode.dynamic, false, some (timeoutMessage s)⟩ ∧
    timeoutMessage s = "Timeout after " ++ toString s.dynamic_scraping_timeout ++ " seconds" ∧
    ∀ (denv2 : DynEnv) (url2 msg : String), denv2.nav url2 = DynOutcome.err msg →
      scrape_dynamic s denv2 url2 = ⟨url2, url2, "", 0, ScraperMode.dynamic, false, some msg⟩ := by
  refine ⟨?_, rfl, fun denv2 url2 msg h2 => ?_⟩
  · simp [scrape_dynamic, h]
  · simp [scrape_dynamic, h2]

/-- Witness for C5: a concrete timed-out navigation. -/
theorem dynamic_timeout_error_witness :
    scrape_dynamic s0 denv0 "http://example.com" =
      ⟨"http://example.com", "http://example.com", "", 0, ScraperMode.dynamic, false,
        some (timeoutMessage s0)⟩ :=
  (dynamic_timeout_error s0 denv0 "http://example.com" rfl).1

/-! ## C4: shape of failed results and presence of the error field -/

/-- The result invariant of C4: a failed result has empty content and zero
char count, and the error field is present exactly on failure. -/
def resultInvariant (r : ScrapeResult) : Prop :=
  (r.success = false → r.content = "" ∧ r.char_count = 0) ∧
    (r.error.isSome = true ↔ r.success = false)

/-- C4: every result produced by the static strategy, the dynamic strategy,
or the orchestrator satisfies the result invariant. -/
theorem all_results_invariant (s : Settings) (env : StaticEnv) (denv : DynEnv) (url : String)
    (mode : ScraperMode) (maxRelatedPages : Nat) :
    resultInvariant (scrape_static env url maxRelatedPages) ∧
    resultInvariant (scrape_dynamic s denv url) ∧
    resultInvariant (scrape_page_async s env denv url mode maxRelatedPages) := by
  have hs : resultInvariant (scrape_static env url maxRelatedPages) := by
    unfold resultInvariant scrape_static
    rcases env.fetch url with e | ⟨html, finalUrl⟩ <;> simp
  have hd : resultInvariant (scrape_dynamic s denv url) := by
    unfold resultInvariant scrape_dynamic
    rcases hnav : denv.nav url with ⟨fu, h⟩ | _ | e <;> simp
  refine ⟨hs, hd, ?_⟩
  cases mode <;> simp only [scrape_page_async]
  · exact hs
  · split_ifs <;> [exact hd; exact hs]
  · split_ifs <;> first | exact hs | exact hd

/-- Witness for C4: the failed static result of a refused connection has
empty content and zero char count. -/
theorem all_results_invariant_witness :
    (scrape_static envFail "http://example.com" 5).content = "" ∧
      (scrape_static envFail "http://example.com" 5).char_count = 0 :=
  (all_results_invariant s0 envFail denv0 "http://example.com" ScraperMode.auto 5).1.1 rfl

/-! ## C3: char_count versus content length -/

/-- Counterexample to C3: a successful dynamic result whose char_count is
not the length of its content (the DYNAMIC PAGE header is counted in the
content but not in char_count). -/
theorem dynamic_char_count_counterexample :
    (scrape_dynamic s0 denvOk "http://x").success = true ∧
      (scrape_dynamic s0 denvOk "http://x").char_count ≠
        (scrape_dynamic s0 denvOk "http://x").content.length := by
  decide

/-- C3 as amended: a successful static result's char_count equals the
length of its content, while a successful dynamic result's char_count
equals the length of the extracted text only, which is the length of the
content minus the length of the DYNAMIC PAGE header. -/
theorem char_count_content_relation (s : Settings) (env : StaticEnv) (denv : DynEnv)
    (url : String) (maxRelatedPages : Nat) :
    ((scrape_static env url maxRelatedPages).success = true →
      (scrape_static env url maxRelatedPages).char_count =
        (scrape_static env url maxRelatedPages).content.length) ∧
    ((scrape_dynamic s denv url).success = true →
      (scrape_dynamic s denv url).content.length =
        (dynamicHeader (scrape_dynamic s denv url).final_url).length +
          (scrape_dynamic s denv url).char_count) := by
  constructor
  · unfold scrape_static
    rcases env.fetch url with e | ⟨html, finalUrl⟩ <;> simp
  · unfold scrape_dynamic
    rcases denv.nav url with ⟨fu, h⟩ | _ | e <;> simp [String.length_append]

/-- Witness for the amended C3: the header accounting at a concrete
successful dynamic scrape. -/
theorem char_count_content_relation_witness :
    (scrape_dynamic s0 denvOk "http://x").content.length =
      (dynamicHeader (scrape_dynamic s0 denvOk "http://x").final_url).length +
        (scrape_dynamic s0 denvOk "http://x").char_count :=
  (char_count_content_relation s0 envFail denvOk "http://x" 5).2 rfl

/-! ## C10: the truncation contract of the Normalizer -/

/-- C10: the Normalizer's output is at most max_length + 23 characters;
when the deduplicated text exceeds max_length the output is exactly its
first max_length characters followed by the 23-character truncation marker
(so the output exceeds max_length, as a concrete instance shows), and
otherwise the output is the deduplicated text unchanged, of length at most
max_length. -/
theorem normalizer_truncation_shape (text : String) (maxLength : Nat) :
    (clean_and_deduplicate_text text maxLength).length ≤ maxLength + 23 ∧
    truncMarker.length = 23 ∧
    (maxLength < (dedupCore text.data).length →
      (clean_and_deduplicate_text text maxLength).data =
        (dedupCore text.data).take maxLength ++ truncMarker ∧
      (clean_and_deduplicate_text text maxLength).length = maxLength + 23) ∧
    ((dedupCore text.data).length ≤ maxLength →
      (clean_and_deduplicate_text text maxLength).data = dedupCore text.data ∧
      (clean_and_deduplicate_text text maxLength).length ≤ maxLength) ∧
    ∃ (t : String) (m : Nat), m < (clean_and_deduplicate_text t m).length := by
  have hm : truncMarker.length = 23 := by decide
  have hlen : ∀ l : List Char, ∀ m : Nat,
      (clean_and_deduplicate_text ⟨l⟩ m).data = cleanCore l m := fun _ _ => rfl
  refine ⟨?_, hm, fun h => ?_, fun h => ?_, ⟨"abcdefghijklmnopqrstuvwxyz", 0, by decide⟩⟩
  · rw [strLength]
    show (cleanCore text.data maxLength).length ≤ maxLength + 23
    unfold cleanCore
    dsimp only
    split_ifs with h
    · simp only [List.length_append, List.length_take, hm]
      omega
    · omega
  · have he : (clean_and_deduplicate_text text maxLength).data =
        (dedupCore text.data).take maxLength ++ truncMarker := by
      show cleanCore text.data maxLength = _
      unfold cleanCore
      dsimp only
      rw [if_pos h]
    refine ⟨he, ?_⟩
    rw [strLength, he]
    simp only [List.length_append, List.length_take, hm]
    omega
  · have he : (clean_and_deduplicate_text text maxLength).data = dedupCore text.data := by
      show cleanCore text.data maxLength = _
      unfold cleanCore
      dsimp only
      rw [if_neg (by omega)]
    refine ⟨he, ?_⟩
    rw [strLength, he]
    exact h

/-- Witness for C10: a concrete truncation at max_length 20. -/
theorem normalizer_truncation_shape_witness :
    (clean_and_deduplicate_text "abcdefghijklmnopqrstuvwxyz" 20).data =
      (dedupCore "abcdefghijklmnopqrstuvwxyz".data).take 20 ++ truncMarker :=
  ((normalizer_truncation_shape "abcdefghijklmnopqrstuvwxyz" 20).2.2.1 (by decide)).1

/-! ## C6: the Link Discoverer's output shape -/

/-- Membership in the first-seen deduplication: an element survives exactly
when it occurs in the input and was not already seen. -/
theorem dedupFSAux_mem_iff {α : Type} [DecidableEq α] (x : α) :
    ∀ (l seen : List α), x ∈ dedupFSAux seen l ↔ x ∈ l ∧ x ∉ seen := by
  intro l
  induction l with
  | nil => intro seen; simp [dedupFSAux]
  | cons y ys ih =>
    intro seen
    by_cases hy : y ∈ seen
    · simp only [dedupFSAux, if_pos hy, ih, List.mem_cons]
      constructor
      · rintro ⟨hx, hns⟩; exact ⟨Or.inr hx, hns⟩
      · rintro ⟨hx | hx, hns⟩
        · exact absurd (hx ▸ hy) hns
        · exact ⟨hx, hns⟩
    · simp only [dedupFSAux, if_neg hy, List.mem_cons, ih]
      constructor
      · rintro (rfl | ⟨hx, hns⟩)
        · exact ⟨Or.inl rfl, hy⟩
        · exact ⟨Or.inr hx, fun hs => hns (Or.inr hs)⟩
      · rintro ⟨rfl | hx, hns⟩
        · exact Or.inl rfl
        · by_cases hxy : x = y
          · exact Or.inl hxy
          · exact Or.inr ⟨hx, fun hs => hs.elim hxy hns⟩

/-- The first-seen deduplication has no duplicates. -/
theorem dedupFSAux_nodup {α : Type} [DecidableEq α] :
    ∀ (l seen : List α), (dedupFSAux seen l).Nodup := by
  intro l
  induction l with
  | nil => intro seen; simp [dedupFSAux]
  | cons y ys ih =>
    intro seen
    by_cases hy : y ∈ seen
    · simpa [dedupFSAux, if_pos hy] using ih seen
    · simp only [dedupFSAux, if_neg hy, List.nodup_cons]
      refine ⟨fun hmem => ?_, ih (y :: seen)⟩
      exact ((dedupFSAux_mem_iff y ys (y :: seen)).mp hmem).2 (List.mem_cons_self _ _)

/-- The find_terms_links loop is first-seen deduplication of the resolved
candidate urls that pass the startswith('http') filter. -/
theorem ftlAux_eq_dedup (resolve : String → String → String) (base : String) :
    ∀ (l : List Node) (found : List String),
      ftlAux resolve base l found =
        dedupFSAux found
          ((termsCandidates resolve base l).filter (fun u => strStartsWith u "http")) := by
  intro l
  induction l with
  | nil => intro found; rfl
  | cons a rest ih =>
    intro found
    by_cases ht : isTermsLink (anchorTextLower a) (hrefOf a) = true
    · by_cases hs : strStartsWith (resolve base (hrefOf a)) "http" = true
      · by_cases hm : resolve base (hrefOf a) ∈ found
        · have hcond : ¬(resolve base (hrefOf a) ∉ found ∧
              strStartsWith (resolve base (hrefOf a)) "http" = true) := by
            intro hc; exact hc.1 hm
          simp [ftlAux, termsCandidates, List.filterMap_cons, ht, hs, hm, hcond,
            dedupFSAux, ih, termsCandidates]
        · have hcond : resolve base (hrefOf a) ∉ found ∧
              strStartsWith (resolve base (hrefOf a)) "http" = true := ⟨hm, hs⟩
          simp [ftlAux, termsCandidates, List.filterMap_cons, ht, hs, hm, hcond,
            dedupFSAux, ih, termsCandidates]
      · have hcond : ¬(resolve base (hrefOf a) ∉ found ∧
            strStartsWith (resolve base (hrefOf a)) "http" = true) := by
          intro hc; exact hs hc.2
        simp [ftlAux, termsCandidates, List.filterMap_cons, ht, hs, hcond, ih]
    · simp [ftlAux, termsCandidates, List.filterMap_cons, ht, ih]

/-- C6 as amended: find_terms_links is the first-seen deduplication of the
resolved urls of terms-matching anchors that start with the string "http";
its output has no duplicate entries (two anchors resolving to the same url
yield one entry), every entry starts with "http", and any resolved url not
starting with "http" (a mailto: url in particular) is excluded.  The claim
as frozen is refuted separately: starting with "http" does not imply an
HTTP(S) scheme. -/
theorem find_terms_links_shape (resolve : String → String → String) (doc : Node)
    (base : String) :
    find_terms_links resolve doc base =
      dedupFS ((termsCandidates resolve base (anchorsOf doc)).filter
        (fun u => strStartsWith u "http")) ∧
    (find_terms_links resolve doc base).Nodup ∧
    (∀ u ∈ find_terms_links resolve doc base, strStartsWith u "http" = true) ∧
    (∀ u, strStartsWith u "http" = false → u ∉ find_terms_links resolve doc base) := by
  have heq : find_terms_links resolve doc base =
      dedupFS ((termsCandidates resolve base (anchorsOf doc)).filter
        (fun u => strStartsWith u "http")) :=
    ftlAux_eq_dedup resolve base (anchorsOf doc) []
  have hmem : ∀ u ∈ find_terms_links resolve doc base, strStartsWith u "http" = true := by
    intro u hu
    rw [heq] at hu
    have := ((dedupFSAux_mem_iff u _ []).mp hu).1
    exact (List.mem_filter.mp this).2
  refine ⟨heq, ?_, hmem, fun u hu hmem2 => ?_⟩
  · rw [heq]; exact dedupFSAux_nodup _ []
  · rw [hmem u hmem2] at hu
    cases hu

/-- Counterexample to C6 as frozen: an anchor whose href carries the
httpx: scheme is emitted by find_terms_links (it starts with "http"), yet
its resolved url does not use an HTTP(S) scheme. -/
def demoDocHttpx : Node :=
  .element "html" [] [.element "a" [("href", "httpx://evil.example/terms")] [.text "click"]]

/-- Counterexample theorem for C6. -/
theorem find_terms_links_counterexample :
    "httpx://evil.example/terms" ∈ find_terms_links urljoin demoDocHttpx "http://example.com/" ∧
      usesHttpScheme "httpx://evil.example/terms" = false := by
  decide

/-- A document with a terms-matching mailto: anchor and two anchors
resolving to the same absolute url. -/
def demoDocMailto : Node :=
  .element "html" []
    [.element "a" [("href", "mailto:legal@example.com")] [.text "contact legal"],
     .element "a" [("href", "http://example.com/terms")] [.text "terms"],
     .element "a" [("href", "http://example.com/terms")] [.text "conditions"]]

/-- Witness for the amended C6: the mailto: url is excluded and the two
anchors with the same resolved url yield a single entry. -/
theorem find_terms_links_shape_witness :
    "mailto:legal@example.com" ∉ find_terms_links urljoin demoDocMailto "http://example.com/" ∧
      find_terms_links urljoin demoDocMailto "http://example.com/" =
        ["http://example.com/terms"] :=
  ⟨(find_terms_links_shape urljoin demoDocMailto "http://example.com/").2.2.2
      "mailto:legal@example.com" (by decide),
    by decide⟩

/-! ## C7: footer text in the extractor's output -/

/-- C7 as amended: the extractor's fragment list contains the visible text
of every element whose tag is footer or div AND whose class attribute has a
class containing "footer" case-insensitively, whenever that text is
nonempty; the extractor's output is these fragments joined with newlines.
The claim as frozen is refuted separately: a footer tag without such a
class attribute is not covered. -/
theorem footer_text_extracted (doc : Node) (e : Node) (he : e ∈ elementsOf doc)
    (hp : footerPred e = true) (ht : getText " " true e ≠ "") :
    getText " " true e ∈ extractParts doc ∧
      extract_fine_print_sections doc = String.intercalate "\n" (extractParts doc) := by
  refine ⟨?_, rfl⟩
  have hfa : e ∈ findAll footerPred doc := List.mem_filter.mpr ⟨he, hp⟩
  have hfm : getText " " true e ∈ (findAll footerPred doc).filterMap nonEmptyText := by
    refine List.mem_filterMap.mpr ⟨e, hfa, ?_⟩
    simp [nonEmptyText, ht]
  unfold extractParts
  exact List.mem_append_left _
    (List.mem_append_left _ (List.mem_append_left _ (List.mem_append_left _ hfm)))

/-- A div with a footer-containing class, and a document holding it. -/
def demoFooterDiv : Node :=
  .element "div" [("class", "page-Footer dark")] [.text "fine print here"]

/-- The enclosing document of demoFooterDiv. -/
def demoDocFooterClass : Node := .element "html" [] [demoFooterDiv]

/-- Witness for the amended C7: the classed div's text is collected. -/
theorem footer_text_extracted_witness :
    getText " " true demoFooterDiv ∈ extractParts demoDocFooterClass :=
  (footer_text_extracted demoDocFooterClass demoFooterDiv
      (by
        show demoFooterDiv ∈ [demoDocFooterClass, demoFooterDiv]
        exact List.mem_cons_of_mem _ (List.mem_cons_self _ _))
      (by decide) (by decide)).1

/-- A bare footer element with no class attribute, and its document. -/
def demoBareFooter : Node := .element "footer" [] [.text "hello world"]

/-- The enclosing document of demoBareFooter. -/
def demoDocBareFooter : Node := .element "html" [] [demoBareFooter]

/-- Counterexample to C7 as frozen: the footer-tagged element's nonempty
visible text is absent from the extractor's fragments and from its whole
output, because find_all(['footer', 'div'], class_=re.compile('footer'))
requires a matching class attribute, which this footer lacks. -/
theorem footer_text_counterexample :
    demoBareFooter ∈ elementsOf demoDocBareFooter ∧
    Node.tag demoBareFooter = some "footer" ∧
    getText " " true demoBareFooter = "hello world" ∧
    getText " " true demoBareFooter ∉ extractParts demoDocBareFooter ∧
    extract_fine_print_sections demoDocBareFooter = "" := by
  refine ⟨?_, rfl, rfl, by decide, rfl⟩
  show demoBareFooter ∈ [demoDocBareFooter, demoBareFooter]
  exact List.mem_cons_of_mem _ (List.mem_cons_self _ _)

/-! ## C8: which sentences the Normalizer keeps -/

/-- The sentence-keeping loop is first-seen deduplication of the sentences
longer than 10 characters (the nonemptiness test is subsumed by the length
test). -/
theorem keepAux_eq_dedup :
    ∀ (l seen : List (List Char)),
      keepAux seen l = dedupFSAux seen (l.filter (fun s => decide (10 < s.length))) := by
  intro l
  induction l with
  | nil => intro seen; rfl
  | cons s ss ih =>
    intro seen
    by_cases hlen : 10 < s.length
    · have hne : s ≠ [] := by
        intro h
        rw [h] at hlen
        exact absurd hlen (by decide)
      by_cases hmem : s ∈ seen
      · have hcond : ¬(s ≠ [] ∧ s ∉ seen ∧ 10 < s.length) := fun hc => hc.2.1 hmem
        simp [keepAux, hcond, List.filter_cons, hlen, dedupFSAux, hmem, ih]
      · have hcond : s ≠ [] ∧ s ∉ seen ∧ 10 < s.length := ⟨hne, hmem, hlen⟩
        simp [keepAux, hcond, List.filter_cons, hlen, dedupFSAux, hmem, ih]
    · have hcond : ¬(s ≠ [] ∧ s ∉ seen ∧ 10 < s.length) := fun hc => hlen hc.2.2
      simp [keepAux, hcond, List.filter_cons, hlen, ih]

/-- Every kept sentence is a stripped sentence of the input longer than 10
characters. -/
theorem keptOf_mem (l : List Char) :
    ∀ s ∈ keptOf l, s ∈ sentencesOf l ∧ 10 < s.length := by
  intro s hs
  unfold keptOf at hs
  rw [keepAux_eq_dedup] at hs
  have := ((dedupFSAux_mem_iff s _ []).mp hs).1
  have hf := List.mem_filter.mp this
  exact ⟨hf.1, by simpa using hf.2⟩

/-- The kept sentences are pairwise distinct. -/
theorem keptOf_nodup (l : List Char) : (keptOf l).Nodup := by
  unfold keptOf
  rw [keepAux_eq_dedup]
  exact dedupFSAux_nodup _ []

/-- Every stripped sentence longer than 10 characters occurs among the kept
sentences. -/
theorem keptOf_complete (l : List Char) :
    ∀ s ∈ sentencesOf l, 10 < s.length → s ∈ keptOf l := by
  intro s hs hlen
  unfold keptOf
  rw [keepAux_eq_dedup]
  refine (dedupFSAux_mem_iff s _ []).mpr ⟨?_, List.not_mem_nil s⟩
  exact List.mem_filter.mpr ⟨hs, by simpa using hlen⟩

/-- C8 as amended: the Normalizer keeps exactly the first occurrences of
the stripped sentences LONGER than 10 characters: the kept list is the
first-seen deduplication of the sentences of length at least 11, it has no
duplicates, every kept sentence is a sentence of the input of length at
least 11, and conversely every stripped sentence of length at least 11
appears among the kept sentences.  The claim as frozen is refuted
separately: a sentence of exactly 10 characters is discarded. -/
theorem normalizer_sentence_filter (text : String) :
    keptOf text.data =
      dedupFS ((sentencesOf text.data).filter (fun s => decide (10 < s.length))) ∧
    (keptOf text.data).Nodup ∧
    (∀ s ∈ keptOf text.data, s ∈ sentencesOf text.data ∧ 10 < s.length) ∧
    (∀ s ∈ sentencesOf text.data, 10 < s.length → s ∈ keptOf text.data) :=
  ⟨keepAux_eq_dedup (sentencesOf text.data) [], keptOf_nodup text.data,
    keptOf_mem text.data, keptOf_complete text.data⟩

/-- Counterexample to C8 as frozen: the trimmed, non-duplicate sentence
"0123456789" of length exactly 10 is a sentence of the input yet is absent
from the kept sentences and from the Normalizer's output. -/
theorem ten_char_sentence_counterexample :
    "0123456789".data ∈ sentencesOf "0123456789.".data ∧
    pyTrim "0123456789".data = "0123456789".data ∧
    ("0123456789".data).length = 10 ∧
    "0123456789".data ∉ keptOf "0123456789.".data ∧
    clean_and_deduplicate_text "0123456789." 100000 = "" := by
  decide

/-- Witness for the amended C8: a trimmed sentence of length 11 is kept. -/
theorem normalizer_sentence_filter_witness :
    "abcdefghijk".data ∈ keptOf "abcdefghijk.".data :=
  (normalizer_sentence_filter "abcdefghijk.").2.2.2 "abcdefghijk".data (by decide) (by decide)

/-! ## C9: idempotence of the Normalizer.  Supporting lemmas about
stripping, splitting, and whitespace collapsing. -/

/-- The first element surviving dropWhile falsifies the predicate. -/
theorem dropWhile_head_not (p : Char → Bool) :
    ∀ (l : List Char) (c : Char) (r : List Char), List.dropWhile p l = c :: r → p c = false := by
  intro l
  induction l with
  | nil => intro c r h; cases h
  | cons a as ih =>
    intro c r h
    rw [List.dropWhile_cons] at h
    by_cases ha : p a = true
    · rw [if_pos ha] at h
      exact ih c r h
    · rw [if_neg ha] at h
      cases h
      simpa using ha

/-- The head of a stripped string is not whitespace. -/
theorem pyTrim_head_not_ws (l : List Char) (c : Char) (r : List Char)
    (h : pyTrim l = c :: r) : isPyWS c = false := by
  obtain ⟨t, ht⟩ := List.rdropWhile_prefix isPyWS (List.dropWhile isPyWS l)
  rw [pyTrim] at h
  rw [h] at ht
  exact dropWhile_head_not isPyWS l c (r ++ t) (by rw [← ht]; rfl)

/-- The last element of a stripped string is not whitespace. -/
theorem pyTrim_last_not_ws (l : List Char) (c : Char) (h : (pyTrim l).getLast? = some c) :
    isPyWS c = false := by
  have hne : pyTrim l ≠ [] := by
    intro h0
    rw [h0] at h
    cases h
  have hlast := List.rdropWhile_last_not isPyWS (List.dropWhile isPyWS l) hne
  rw [List.getLast?_eq_getLast_of_ne_nil hne] at h
  have hc : (pyTrim l).getLast hne = c := by injection h
  rw [← hc]
  simpa using hlast

/-- Stripping is idempotent. -/
theorem pyTrim_idem (l : List Char) : pyTrim (pyTrim l) = pyTrim l := by
  have h1 : List.dropWhile isPyWS (pyTrim l) = pyTrim l := by
    cases hc : pyTrim l with
    | nil => rfl
    | cons c r =>
      rw [List.dropWhile_cons, pyTrim_head_not_ws l c r hc]
      simp
  simp only [pyTrim] at h1 ⊢
  rw [h1]
  exact List.rdropWhile_idempotent isPyWS (List.dropWhile isPyWS l)

/-- A stripped string is an infix of the original. -/
theorem pyTrim_infix_self (l : List Char) : pyTrim l <:+: l :=
  ( List.rdropWhile_prefix isPyWS (List.dropWhile isPyWS l)).isInfix.trans
    ( List.dropWhile_suffix isPyWS).isInfix

/-- Stripping swallows a leading space. -/
theorem pyTrim_cons_space (l : List Char) : pyTrim (' ' :: l) = pyTrim l := by
  simp only [pyTrim, List.dropWhile_cons]
  rw [if_pos (by decide)]

/-- splitOnChar never returns an empty part list. -/
theorem splitOnChar_ne_nil (sep : Char) : ∀ l, splitOnChar sep l ≠ [] := by
  intro l
  cases l with
  | nil => simp [splitOnChar]
  | cons c cs =>
    by_cases h : (c == sep) = true
    · simp [splitOnChar, h]
    · simp only [splitOnChar, h, Bool.false_eq_true, if_false]
      cases hs : splitOnChar sep cs <;> simp

/-- The first part of a split is a prefix of the input. -/
theorem splitOnChar_head_pre (sep : Char) :
    ∀ (l q : List Char) (qs : List (List Char)), splitOnChar sep l = q :: qs → q <+: l := by
  intro l
  induction l with
  | nil =>
    intro q qs h
    cases h
    exact List.nil_prefix
  | cons c cs ih =>
    intro q qs h
    by_cases hc : (c == sep) = true
    · simp only [splitOnChar, hc, if_true] at h
      cases h
      exact List.nil_prefix
    · cases hs : splitOnChar sep cs with
      | nil => exact absurd hs (splitOnChar_ne_nil sep cs)
      | cons p ps =>
        simp only [splitOnChar, hc, Bool.false_eq_true, if_false, hs] at h
        injection h with h1 h2
        subst h1
        obtain ⟨t, ht⟩ := ih p ps hs
        exact ⟨t, by rw [List.cons_append, ht]⟩

/-- No part of a split contains the separator. -/
theorem splitOnChar_sep_not_mem (sep : Char) :
    ∀ (l p : List Char), p ∈ splitOnChar sep l → sep ∉ p := by
  intro l
  induction l with
  | nil =>
    intro p hp
    simp only [splitOnChar, List.mem_singleton] at hp
    subst hp
    exact List.not_mem_nil sep
  | cons c cs ih =>
    intro p hp
    by_cases hc : (c == sep) = true
    · simp only [splitOnChar, hc, if_true, List.mem_cons] at hp
      rcases hp with rfl | hp
      · exact List.not_mem_nil sep
      · exact ih p hp
    · cases hs : splitOnChar sep cs with
      | nil => exact absurd hs (splitOnChar_ne_nil sep cs)
      | cons q qs =>
        simp only [splitOnChar, hc, Bool.false_eq_true, if_false, hs, List.mem_cons] at hp
        rcases hp with rfl | hp2
        · intro hmem
          rcases List.mem_cons.mp hmem with rfl | hmem2
          · simp at hc
          · exact ih q (hs ▸ List.mem_cons_self q qs) hmem2
        · exact ih p (hs ▸ List.mem_cons_of_mem q hp2)

/-- Every part of a split is an infix of the input. -/
theorem splitOnChar_mem_infixOf (sep : Char) :
    ∀ (l p : List Char), p ∈ splitOnChar sep l → p <:+: l := by
  intro l
  induction l with
  | nil =>
    intro p hp
    simp only [splitOnChar, List.mem_singleton] at hp
    subst hp
    exact List.nil_infix
  | cons c cs ih =>
    intro p hp
    by_cases hc : (c == sep) = true
    · simp only [splitOnChar, hc, if_true, List.mem_cons] at hp
      rcases hp with rfl | hp
      · exact List.nil_infix
      · exact List.infix_cons (ih p hp)
    · cases hs : splitOnChar sep cs with
      | nil => exact absurd hs (splitOnChar_ne_nil sep cs)
      | cons q qs =>
        simp only [splitOnChar, hc, Bool.false_eq_true, if_false, hs, List.mem_cons] at hp
        rcases hp with rfl | hp2
        · refine (splitOnChar_head_pre sep (c :: cs) (c :: q) qs ?_).isInfix
          simp only [splitOnChar, hc, Bool.false_eq_true, if_false, hs]
        · exact List.infix_cons (ih p (hs ▸ List.mem_cons_of_mem q hp2))

/-- Splitting a separator-free string is the identity. -/
theorem splitOnChar_no_sep (sep : Char) :
    ∀ (s : List Char), sep ∉ s → splitOnChar sep s = [s] := by
  intro s
  induction s with
  | nil => intro _; rfl
  | cons c cs ih =>
    intro h
    have hc : (c == sep) = false := by
      simp only [beq_eq_false_iff_ne, ne_eq]
      intro h0
      exact h (h0 ▸ List.mem_cons_self c cs)
    have hcs : sep ∉ cs := fun h0 => h (List.mem_cons_of_mem c h0)
    simp only [splitOnChar, hc, Bool.false_eq_true, if_false, ih hcs]

/-- Splitting distributes over appending a separator-free block, the
separator, and a remainder. -/
theorem splitOnChar_append (sep : Char) :
    ∀ (s r : List Char), sep ∉ s →
      splitOnChar sep (s ++ sep :: r) = s :: splitOnChar sep r := by
  intro s
  induction s with
  | nil =>
    intro r _
    simp [splitOnChar]
  | cons c cs ih =>
    intro r h
    have hc : (c == sep) = false := by
      simp only [beq_eq_false_iff_ne, ne_eq]
      intro h0
      exact h (h0 ▸ List.mem_cons_self c cs)
    have hcs : sep ∉ cs := fun h0 => h (List.mem_cons_of_mem c h0)
    rw [List.cons_append]
    simp only [splitOnChar, hc, Bool.false_eq_true, if_false, ih r hcs]

/-- Every whitespace character of the list is a plain space. -/
def SpaceOnly (l : List Char) : Prop := ∀ c ∈ l, isPyWS c = true → c = ' '

/-- No two adjacent characters of the list are both spaces. -/
def NoDblSpace (l : List Char) : Prop := l.Chain' (fun a b => ¬(a = ' ' ∧ b = ' '))

/-- A whitespace-collapsed string: only plain single spaces occur. -/
def CollapsedStr (l : List Char) : Prop := SpaceOnly l ∧ NoDblSpace l

/-- With the flag set, the collapse never emits a leading whitespace
character. -/
theorem collapseAux_true_head :
    ∀ (l : List Char) (c : Char) (r : List Char),
      collapseAux true l = c :: r → isPyWS c = false := by
  intro l
  induction l with
  | nil => intro c r h; cases h
  | cons a as ih =>
    intro c r h
    by_cases ha : isPyWS a = true
    · rw [show collapseAux true (a :: as) = collapseAux true as by simp [collapseAux, ha]] at h
      exact ih c r h
    · rw [show collapseAux true (a :: as) = a :: collapseAux false as by
          simp [collapseAux, ha]] at h
      injection h with h1 _
      subst h1
      simpa using ha

/-- The collapse output is a collapsed string. -/
theorem collapseAux_collapsed : ∀ (l : List Char) (b : Bool), CollapsedStr (collapseAux b l) := by
  intro l
  induction l with
  | nil =>
    intro b
    exact ⟨fun c hc => absurd hc (List.not_mem_nil c), List.chain'_nil⟩
  | cons a as ih =>
    intro b
    by_cases ha : isPyWS a = true
    · cases b with
      | true => simpa [collapseAux, ha] using ih true
      | false =>
        rw [show collapseAux false (a :: as) = ' ' :: collapseAux true as by
            simp [collapseAux, ha]]
        obtain ⟨hso, hnd⟩ := ih true
        refine ⟨?_, ?_⟩
        · intro c hc hws
          rcases List.mem_cons.mp hc with rfl | hc2
          · rfl
          · exact hso c hc2 hws
        · refine List.chain'_cons'.mpr ⟨?_, hnd⟩
          intro y hy
          cases hht : collapseAux true as with
          | nil => rw [hht] at hy; cases hy
          | cons c r =>
            rw [hht] at hy
            simp only [List.head?_cons, Option.mem_def, Option.some.injEq] at hy
            subst hy
            have := collapseAux_true_head as c r hht
            intro hcon
            rw [hcon.2] at this
            exact absurd this (by decide)
    · rw [show collapseAux b (a :: as) = a :: collapseAux false as by simp [collapseAux, ha]]
      obtain ⟨hso, hnd⟩ := ih false
      have hane : a ≠ ' ' := by
        intro h0
        rw [h0] at ha
        exact ha (by decide)
      refine ⟨?_, ?_⟩
      · intro c hc hws
        rcases List.mem_cons.mp hc with rfl | hc2
        · exact absurd hws ha
        · exact hso c hc2 hws
      · exact List.chain'_cons'.mpr ⟨fun y _ hcon => hane hcon.1, hnd⟩

/-- A collapsed string is closed under infixes. -/
theorem collapsed_infixOf {l m : List Char} (h : CollapsedStr l) (hinf : m <:+: l) :
    CollapsedStr m :=
  ⟨fun c hc => h.1 c (hinf.subset hc), List.Chain'.infix h.2 hinf⟩

/-- Collapsing a collapsed string is the identity (for the starting flag,
provided the string has no leading space when the flag is set). -/
theorem collapseAux_eq_self :
    ∀ (l : List Char), CollapsedStr l →
      ∀ (b : Bool),
        (b = true → ∀ (c : Char) (r : List Char), l = c :: r → isPyWS c = false) →
        collapseAux b l = l := by
  intro l
  induction l with
  | nil => intro _ b _; rfl
  | cons a as ih =>
    intro hcol b hb
    obtain ⟨hso, hnd⟩ := hcol
    have htail : CollapsedStr as :=
      ⟨fun c hc => hso c (List.mem_cons_of_mem a hc), (List.chain'_cons'.mp hnd).2⟩
    by_cases ha : isPyWS a = true
    · have haSp : a = ' ' := hso a (List.mem_cons_self a as) ha
      cases b with
      | true => exact absurd (hb rfl a as rfl) (by simp [ha])
      | false =>
        have hstep : collapseAux false (a :: as) = ' ' :: collapseAux true as := by
          simp [collapseAux, ha]
        have has : collapseAux true as = as := by
          apply ih htail true
          intro _ c r hcr
          have hmem : c ∈ a :: as := by
            rw [hcr]
            exact List.mem_cons_of_mem a (List.mem_cons_self c r)
          have hrel := (List.chain'_cons'.mp hnd).1 c (by rw [hcr]; rfl)
          by_cases hcw : isPyWS c = true
          · exact absurd ⟨haSp, hso c hmem hcw⟩ hrel
          · simpa using hcw
        rw [hstep, has, haSp]
    · have hstep : collapseAux b (a :: as) = a :: collapseAux false as := by
        simp [collapseAux, ha]
      rw [hstep, ih htail false (fun h => nomatch h)]

/-- Collapsing never lengthens a string. -/
theorem collapseAux_len_le : ∀ (l : List Char) (b : Bool),
    (collapseAux b l).length ≤ l.length := by
  intro l
  induction l with
  | nil => intro b; exact Nat.le_refl 0
  | cons a as ih =>
    intro b
    by_cases ha : isPyWS a = true
    · cases b with
      | true =>
        rw [show collapseAux true (a :: as) = collapseAux true as by simp [collapseAux, ha]]
        exact Nat.le_succ_of_le (ih true)
      | false =>
        rw [show collapseAux false (a :: as) = ' ' :: collapseAux true as by
            simp [collapseAux, ha]]
        simpa using ih true
    · rw [show collapseAux b (a :: as) = a :: collapseAux false as by simp [collapseAux, ha]]
      simpa using ih false

/-- With a non-whitespace head, the starting flag is irrelevant. -/
theorem collapseAux_flag (c : Char) (cs : List Char) (hc : isPyWS c = false) :
    collapseAux true (c :: cs) = collapseAux false (c :: cs) := by
  simp [collapseAux, hc]

/-- Collapsing distributes over an append whose left part is already
collapsed and ends in a non-whitespace character. -/
theorem collapseAux_append :
    ∀ (s : List Char) (b : Bool) (r : List Char), s ≠ [] →
      collapseAux b s = s → (∀ c, s.getLast? = some c → isPyWS c = false) →
      collapseAux b (s ++ r) = s ++ collapseAux false r := by
  intro s
  induction s with
  | nil => intro b r hne; exact absurd rfl hne
  | cons a as ih =>
    intro b r _ hs hlast
    by_cases ha : isPyWS a = true
    · cases b with
      | true =>
        have hstep : collapseAux true (a :: as) = collapseAux true as := by
          simp [collapseAux, ha]
        rw [hstep] at hs
        have := collapseAux_len_le as true
        rw [hs] at this
        exact absurd this (by simp)
      | false =>
        have hstep : collapseAux false (a :: as) = ' ' :: collapseAux true as := by
          simp [collapseAux, ha]
        rw [hstep] at hs
        injection hs with h1 h2
        cases as with
        | nil =>
          have := hlast a (by rfl)
          exact absurd ha (by simp [this])
        | cons a2 ss =>
          have hstep2 : collapseAux false ((a :: a2 :: ss) ++ r) =
              ' ' :: collapseAux true ((a2 :: ss) ++ r) := by
            simp [collapseAux, ha]
          rw [hstep2]
          rw [ih true r (by simp) h2
            (fun c hc => hlast c (by rw [List.getLast?_cons_cons]; exact hc))]
          rw [← h1]
          rfl
    · have hstep : collapseAux b (a :: as) = a :: collapseAux false as := by
        simp [collapseAux, ha]
      rw [hstep] at hs
      injection hs with _ h2
      cases as with
      | nil =>
        have hstep3 : collapseAux b ([a] ++ r) = a :: collapseAux false r := by
          simp [collapseAux, ha]
        rw [hstep3]
        rfl
      | cons a2 ss =>
        have hstep4 : collapseAux b ((a :: a2 :: ss) ++ r) =
            a :: collapseAux false ((a2 :: ss) ++ r) := by
          simp [collapseAux, ha]
        rw [hstep4]
        rw [ih false r (by simp) h2
          (fun c hc => hlast c (by rw [List.getLast?_cons_cons]; exact hc))]
        rfl

/-- The join of a nonempty sentence list starts with the head sentence's
first character. -/
theorem joinDot_head (s : List Char) (ss : List (List Char)) (c : Char) (q : List Char)
    (h : s = c :: q) : ∃ t, joinDot (s :: ss) = c :: t := by
  cases ss with
  | nil => exact ⟨q, by simp [joinDot, h]⟩
  | cons s2 rest => exact ⟨q ++ '.' :: ' ' :: joinDot (s2 :: rest), by simp [joinDot, h]⟩

/-- A sentence surviving the Normalizer's filter: nonempty, already
whitespace-collapsed, already stripped, and free of periods. -/
def CleanSentence (s : List Char) : Prop :=
  s ≠ [] ∧ collapseAux false s = s ∧ pyTrim s = s ∧ ('.' : Char) ∉ s

/-- Collapsing the join of clean sentences is the identity. -/
theorem collapse_joinDot :
    ∀ (ks : List (List Char)), (∀ s ∈ ks, CleanSentence s) →
      collapseAux false (joinDot ks) = joinDot ks := by
  intro ks
  induction ks with
  | nil => intro _; rfl
  | cons s ss ih =>
    intro h
    obtain ⟨hne, hcol, htrim, _⟩ := h s (List.mem_cons_self s ss)
    have hlast : ∀ c, s.getLast? = some c → isPyWS c = false := by
      intro c hc
      exact pyTrim_last_not_ws s c (by rw [htrim]; exact hc)
    cases ss with
    | nil => exact hcol
    | cons s2 rest =>
      have hs2 := h s2 (List.mem_cons_of_mem s (List.mem_cons_self s2 rest))
      obtain ⟨hne2, _, htrim2, _⟩ := hs2
      rw [show joinDot (s :: s2 :: rest) = s ++ '.' :: ' ' :: joinDot (s2 :: rest) from rfl]
      rw [collapseAux_append s false ('.' :: ' ' :: joinDot (s2 :: rest)) hne hcol hlast]
      have hdot : collapseAux false ('.' :: ' ' :: joinDot (s2 :: rest)) =
          '.' :: ' ' :: collapseAux true (joinDot (s2 :: rest)) := by
        simp [collapseAux, isPyWS]
      rw [hdot]
      obtain ⟨c, q, hs2c⟩ := List.exists_cons_of_ne_nil hne2
      obtain ⟨t, ht⟩ := joinDot_head s2 rest c q hs2c
      have hcws : isPyWS c = false := pyTrim_head_not_ws s2 c q (by rw [htrim2]; exact hs2c)
      rw [ht, collapseAux_flag c t hcws, ← ht]
      rw [ih (fun x hx => h x (List.mem_cons_of_mem s hx))]

/-- Splitting the join of clean sentences on periods and stripping each
part recovers the sentences. -/
theorem splitDot_joinDot :
    ∀ (ks : List (List Char)), ks ≠ [] →
      (∀ s ∈ ks, ('.' : Char) ∉ s ∧ pyTrim s = s) →
      (splitDot (joinDot ks)).map pyTrim = ks := by
  intro ks
  induction ks with
  | nil => intro h _; exact absurd rfl h
  | cons s ss ih =>
    intro _ h
    obtain ⟨hdot, htrim⟩ := h s (List.mem_cons_self s ss)
    cases ss with
    | nil =>
      show (splitDot s).map pyTrim = [s]
      rw [splitDot, splitOnChar_no_sep '.' s hdot]
      simp [htrim]
    | cons s2 rest =>
      rw [show joinDot (s :: s2 :: rest) = s ++ '.' :: ' ' :: joinDot (s2 :: rest) from rfl]
      rw [splitDot, splitOnChar_append '.' s (' ' :: joinDot (s2 :: rest)) hdot]
      have hih := ih (by simp) (fun x hx => h x (List.mem_cons_of_mem s hx))
      cases hsp : splitDot (joinDot (s2 :: rest)) with
      | nil => exact absurd hsp (splitOnChar_ne_nil '.' (joinDot (s2 :: rest)))
      | cons q qs =>
        have hspace : splitOnChar '.' (' ' :: joinDot (s2 :: rest)) = (' ' :: q) :: qs := by
          simp only [splitOnChar, show ((' ' : Char) == '.') = false by decide,
            Bool.false_eq_true, if_false]
          rw [show splitOnChar '.' (joinDot (s2 :: rest)) = q :: qs from hsp]
        rw [hspace]
        rw [hsp] at hih
        simp only [List.map_cons] at hih ⊢
        rw [pyTrim_cons_space q, htrim, hih]

/-- The keeping loop leaves a list untouched when it has no duplicates, all
members are longer than 10 characters, and none was seen before. -/
theorem keepAux_fix :
    ∀ (l seen : List (List Char)), l.Nodup → (∀ s ∈ l, 10 < s.length) →
      (∀ s ∈ l, s ∉ seen) → keepAux seen l = l := by
  intro l
  induction l with
  | nil => intro seen _ _ _; rfl
  | cons s ss ih =>
    intro seen hnd hlen hseen
    have hs10 : 10 < s.length := hlen s (List.mem_cons_self s ss)
    have hsne : s ≠ [] := by
      intro h0
      rw [h0] at hs10
      exact absurd hs10 (by decide)
    have hcond : s ≠ [] ∧ s ∉ seen ∧ 10 < s.length :=
      ⟨hsne, hseen s (List.mem_cons_self s ss), hs10⟩
    rw [show keepAux seen (s :: ss) = s :: keepAux (s :: seen) ss by simp [keepAux, hcond]]
    rw [ih (s :: seen) (List.nodup_cons.mp hnd).2
      (fun x hx => hlen x (List.mem_cons_of_mem s hx))
      (fun x hx => by
        intro hmem
        rcases List.mem_cons.mp hmem with rfl | hmem2
        · exact (List.nodup_cons.mp hnd).1 hx
        · exact hseen x (List.mem_cons_of_mem s hx) hmem2)]

/-- Every kept sentence of the Normalizer is a clean sentence. -/
theorem keptOf_clean (l : List Char) : ∀ s ∈ keptOf l, CleanSentence s := by
  intro s hs
  obtain ⟨hsent, hlen⟩ := keptOf_mem l s hs
  have hsent2 : s ∈ (splitDot (collapseWS l)).map pyTrim := hsent
  obtain ⟨p, hp, hps⟩ := List.mem_map.mp hsent2
  have hne : s ≠ [] := by
    intro h0
    rw [h0] at hlen
    exact absurd hlen (by decide)
  have hidem : pyTrim s = s := by rw [← hps]; exact pyTrim_idem p
  have hinf : s <:+: p := by rw [← hps]; exact pyTrim_infix_self p
  have hdot : ('.' : Char) ∉ s := by
    intro hd
    exact splitOnChar_sep_not_mem '.' (collapseWS l) p hp (hinf.subset hd)
  have hcolp : CollapsedStr p :=
    collapsed_infixOf (collapseAux_collapsed l false)
      (splitOnChar_mem_infixOf '.' (collapseWS l) p hp)
  have hcfix : collapseAux false s = s :=
    collapseAux_eq_self s (collapsed_infixOf hcolp hinf) false (fun h => nomatch h)
  exact ⟨hne, hcfix, hidem, hdot⟩

/-- The deduplicated text is a fixed point of deduplication. -/
theorem dedupCore_idem (l : List Char) : dedupCore (dedupCore l) = dedupCore l := by
  by_cases hks : keptOf l = []
  · have h1 : dedupCore l = [] := by
      show joinDot (keptOf l) = []
      rw [hks]
      rfl
    rw [h1]
    rfl
  · have hclean : ∀ s ∈ keptOf l, CleanSentence s := keptOf_clean l
    have hcol : collapseWS (dedupCore l) = dedupCore l := collapse_joinDot (keptOf l) hclean
    have hsplit : (splitDot (collapseWS (dedupCore l))).map pyTrim = keptOf l := by
      rw [hcol]
      exact splitDot_joinDot (keptOf l) hks
        (fun s hs => ⟨(hclean s hs).2.2.2, (hclean s hs).2.2.1⟩)
    have hkept : keptOf (dedupCore l) = keptOf l := by
      show keepAux [] ((splitDot (collapseWS (dedupCore l))).map pyTrim) = keptOf l
      rw [hsplit]
      exact keepAux_fix (keptOf l) [] (keptOf_nodup l)
        (fun s hs => (keptOf_mem l s hs).2) (fun s _ => List.not_mem_nil s)
    show joinDot (keptOf (dedupCore l)) = dedupCore l
    rw [hkept]
    rfl

/-- C9 as amended: the Normalizer is idempotent on every input whose
deduplicated text fits within max_length, that is, whenever no truncation
occurs; the unrestricted claim is refuted separately by an input that gets
truncated. -/
theorem normalizer_idempotent_no_trunc (text : String) (maxLength : Nat)
    (h : (dedupCore text.data).length ≤ maxLength) :
    clean_and_deduplicate_text (clean_and_deduplicate_text text maxLength) maxLength =
      clean_and_deduplicate_text text maxLength := by
  have h1 : clean_and_deduplicate_text text maxLength = ⟨dedupCore text.data⟩ := by
    show (⟨cleanCore text.data maxLength⟩ : String) = _
    unfold cleanCore
    dsimp only
    rw [if_neg (by omega)]
  rw [h1]
  show (⟨cleanCore (dedupCore text.data) maxLength⟩ : String) = _
  unfold cleanCore
  dsimp only
  rw [dedupCore_idem, if_neg (by omega)]

/-- Counterexample to C9 as frozen: with max_length 16 the truncation
marker interacts with the sentence filter, so a second application changes
the text. -/
theorem normalizer_not_idempotent :
    clean_and_deduplicate_text
        (clean_and_deduplicate_text "abcdefghijkl. mnopqrstuvwxyz0123" 16) 16 ≠
      clean_and_deduplicate_text "abcdefghijkl. mnopqrstuvwxyz0123" 16 := by
  decide

/-- Witness for the amended C9: idempotence at a concrete untruncated
input. -/
theorem normalizer_idempotent_witness :
    clean_and_deduplicate_text (clean_and_deduplicate_text "hello world again." 1000) 1000 =
      clean_and_deduplicate_text "hello world again." 1000 :=
  normalizer_idempotent_no_trunc "hello world again." 1000 (by decide)
